import Mathlib

/-!
Verification of the swiftplay-analysis crawl engine.

Shallow embedding of `src/data/IRON_IV/{main.py, api_client.py, data_manager.py}`:
the BFS scheduler (`LeagueBFS`), the dual-window rate limiter (`RateLimit`),
the retrying API client (`RiotAPIClient._make_request`), the CSV-backed record
store (`DataManager`) and the aggregation step (`_aggregate_player_data`).
Machine floats of the source are modelled with exact rationals; wall-clock time
is modelled as an explicit rational clock advanced only by sleeps.
-/

namespace SwiftPlay

/-! ## Record store: `DataManager.save_player_matches` (data_manager.py 94-115) -/

/-- A row of a per-category player-match CSV partition.  Only the natural-key
columns matter for dedup; all remaining columns are bundled into `rest`. -/
structure PMRow where
  matchId : String
  puuid : String
  rest : String
  deriving DecidableEq, Repr

/-- The membership test performed row-by-row against the existing partition:
`len(existing_df[(existing_df["matchId"] == m) & (existing_df["puuid"] == p)]) > 0`. -/
def keyExists (store : List PMRow) (m : PMRow) : Bool :=
  store.any (fun r => r.matchId == m.matchId && r.puuid == m.puuid)

/-- `DataManager.save_player_matches`: keep only the batch rows whose
(matchId, puuid) key is absent from the existing partition, append them. -/
def save_player_matches (store batch : List PMRow) : List PMRow :=
  store ++ batch.filter (fun m => !(keyExists store m))

/-- Number of stored rows carrying a given (matchId, puuid) natural key. -/
def countKey (store : List PMRow) (mid pid : String) : Nat :=
  (store.filter (fun r => r.matchId == mid && r.puuid == pid)).length

/-- A batch has pairwise distinct natural keys. -/
def distinctKeys (batch : List PMRow) : Prop :=
  batch.Pairwise (fun a b => a.matchId ≠ b.matchId ∨ a.puuid ≠ b.puuid)

/-! ## Record store: match-existence cache (data_manager.py 54-81) -/

/-- The two match-category partitions. -/
inductive QT where
  | swiftplay
  | ranked
  deriving DecidableEq, Repr

/-- A row of a matches CSV file; only `matchId` matters for existence. -/
structure MatchRow where
  matchId : String
  rest : String
  deriving DecidableEq, Repr

/-- `DataManager` state relevant to match existence: the in-memory
`match_id_cache` and the two matches files. -/
structure DMState where
  cache : List String
  swiftFile : List MatchRow
  rankedFile : List MatchRow
  deriving DecidableEq, Repr

/-- `DataManager._initialize_files`, cache-hydration part: the cache is
loaded from the `matchId` column of BOTH matches files. -/
def initialize_cache (swift ranked : List MatchRow) : DMState :=
  ⟨swift.map (·.matchId) ++ ranked.map (·.matchId), swift, ranked⟩

/-- The per-category matches file selected by `match_exists`. -/
def matchFile (st : DMState) : QT → List MatchRow
  | .swiftplay => st.swiftFile
  | .ranked => st.rankedFile

/-- `DataManager.match_exists`: cache hit wins regardless of category;
on miss, scan the requested category's file and cache a hit. -/
def match_exists (st : DMState) (mid : String) (qt : QT) : Bool × DMState :=
  if st.cache.contains mid then (true, st)
  else if ((matchFile st qt).map (·.matchId)).contains mid then
    (true, { st with cache := st.cache ++ [mid] })
  else (false, st)

/-! ## CLI entry point `main` (main.py 346-369) -/

/-- The ways a crawl run handed to `main`'s try block can finish. -/
inductive RunOutcome where
  | completed
  | keyboardInterrupt
  | error (msg : String)
  deriving DecidableEq, Repr

/-- `main`'s exception handling: every outcome is caught and logged; the
function then returns normally, so the interpreter exits with status 0.
Returns (exit status, log lines emitted by the handlers). -/
def mainRun (o : RunOutcome) : Nat × List String :=
  match o with
  | .completed => (0, [])
  | .keyboardInterrupt => (0, ["Program terminated by user"])
  | .error m => (0, ["Program terminated with error: " ++ m])

/-! ## Aggregation: `LeagueBFS._aggregate_player_data` (main.py 247-344) -/

/-- The fields of one per-player match record that the aggregation reads. -/
structure PMatch where
  kills : Nat
  deaths : Nat
  assists : Nat
  win : Bool
  tier : String
  rank : String
  summonerLevel : Nat
  deriving DecidableEq, Repr

/-- Stat counters accumulated over one category's matches. -/
structure Totals where
  kills : Nat
  deaths : Nat
  assists : Nat
  wins : Nat
  deriving DecidableEq, Repr

/-- One loop iteration of the stats accumulation. -/
def bumpTotals (t : Totals) (m : PMatch) : Totals :=
  { kills := t.kills + m.kills
    deaths := t.deaths + m.deaths
    assists := t.assists + m.assists
    wins := t.wins + (if m.win then 1 else 0) }

/-- The swiftplay loop: accumulate stats and, while the accumulated tier is
still "UNRANKED", adopt the current match's tier/rank/summonerLevel. -/
def swiftplayLoop : List PMatch → Totals → String → String → Nat →
    Totals × String × String × Nat
  | [], t, tier, rank, lvl => (t, tier, rank, lvl)
  | m :: ms, t, tier, rank, lvl =>
    let t' := bumpTotals t m
    if tier == "UNRANKED" then
      swiftplayLoop ms t' m.tier m.rank m.summonerLevel
    else
      swiftplayLoop ms t' tier rank lvl

/-- The ranked loop accumulates stats only. -/
def rankedLoop : List PMatch → Totals → Totals
  | [], t => t
  | m :: ms, t => rankedLoop ms (bumpTotals t m)

/-- The `player_data` dictionary produced by `_aggregate_player_data`.
Ranked fields are `Option`-valued: `None` in the source becomes `none`. -/
structure PlayerData where
  puuid : String
  summonerLevel : Nat
  tier : String
  rank : String
  swiftplay_kills : Nat
  swiftplay_deaths : Nat
  swiftplay_assists : Nat
  swiftplay_kd : ℚ
  swiftplay_ad : ℚ
  swiftplay_kda : ℚ
  swiftplay_kad : ℚ
  swiftplay_win_loss_ratio : ℚ
  ranked_kills : Option Nat
  ranked_deaths : Option Nat
  ranked_assists : Option Nat
  ranked_kd : Option ℚ
  ranked_ad : Option ℚ
  ranked_kda : Option ℚ
  ranked_kad : Option ℚ
  ranked_win_loss_ratio : Option ℚ
  deriving DecidableEq, Repr

/-- `LeagueBFS._aggregate_player_data` (floats modelled as rationals). -/
def aggregate_player_data (puuid : String) (swiftplay_data ranked_data : List PMatch) :
    PlayerData :=
  let (s, tier, rank, lvl) :=
    swiftplayLoop swiftplay_data ⟨0, 0, 0, 0⟩ "UNRANKED" "UNRANKED" 0
  let games : Nat := swiftplay_data.length
  let dfr : ℚ := (max 1 s.deaths : Nat)
  let kd : ℚ := (s.kills : ℚ) / dfr
  let ad : ℚ := (s.assists : ℚ) / dfr
  let kda : ℚ := ((s.kills : ℚ) + (s.assists : ℚ) / 2) / dfr
  let kad : ℚ := ((s.kills : ℚ) + (s.assists : ℚ)) / dfr
  let wl : ℚ := (s.wins : ℚ) / ((max 1 (games - s.wins) : Nat) : ℚ)
  let base : PlayerData :=
    { puuid := puuid, summonerLevel := lvl, tier := tier, rank := rank
      swiftplay_kills := s.kills, swiftplay_deaths := s.deaths
      swiftplay_assists := s.assists
      swiftplay_kd := kd, swiftplay_ad := ad, swiftplay_kda := kda
      swiftplay_kad := kad, swiftplay_win_loss_ratio := wl
      ranked_kills := none, ranked_deaths := none, ranked_assists := none
      ranked_kd := none, ranked_ad := none, ranked_kda := none
      ranked_kad := none, ranked_win_loss_ratio := none }
  match ranked_data with
  | [] => base
  | _ :: _ =>
    let r := rankedLoop ranked_data ⟨0, 0, 0, 0⟩
    let rgames : Nat := ranked_data.length
    let rdfr : ℚ := (max 1 r.deaths : Nat)
    { base with
      ranked_kills := some r.kills, ranked_deaths := some r.deaths
      ranked_assists := some r.assists
      ranked_kd := some ((r.kills : ℚ) / rdfr)
      ranked_ad := some ((r.assists : ℚ) / rdfr)
      ranked_kda := some (((r.kills : ℚ) + (r.assists : ℚ) / 2) / rdfr)
      ranked_kad := some (((r.kills : ℚ) + (r.assists : ℚ)) / rdfr)
      ranked_win_loss_ratio :=
        some ((r.wins : ℚ) / ((max 1 (rgames - r.wins) : Nat) : ℚ)) }

/-- Specification-side sums over a category's matches. -/
def sumKills (l : List PMatch) : Nat := (l.map (·.kills)).sum

def sumDeaths (l : List PMatch) : Nat := (l.map (·.deaths)).sum

def sumAssists (l : List PMatch) : Nat := (l.map (·.assists)).sum

def sumWins (l : List PMatch) : Nat := (l.map (fun m => if m.win then 1 else 0)).sum

/-! ## Rate limiter: `RateLimit.wait_if_needed` (api_client.py 15-42)

Wall-clock time is an explicit rational; `time.sleep(w)` advances it by `w`;
`time.time()` reads it.  One call to `wait_if_needed` is a function of the
clock value at entry and the two timestamp windows. -/

/-- The two sliding windows of request timestamps (deques, oldest first). -/
structure RLState where
  short : List ℚ
  long : List ℚ
  deriving DecidableEq, Repr

/-- The popleft loop `while deque and now - deque[0] > w: deque.popleft()`. -/
def pruneWindow (w now : ℚ) (ts : List ℚ) : List ℚ :=
  ts.dropWhile (fun t => decide (w < now - t))

/-- The short-window block of `wait_if_needed`: when the pruned 1-second
window `sh` is at the limit, sleep `1 - (current_time - sh[0])` if positive;
returns the clock after the (possible) sleep. -/
def shortAdjusted (rps : Nat) (now : ℚ) (sh : List ℚ) : ℚ :=
  if rps ≤ sh.length then
    if 0 < 1 - (now - sh.headD 0) then now + (1 - (now - sh.headD 0)) else now
  else now

/-- The long-window block of `wait_if_needed`: the wait is computed from the
stale `current_time` (`now`) read at entry, but the sleep happens after the
short-window sleep (so it is added to `now1`), exactly as in the source. -/
def longAdjusted (r2m : Nat) (now now1 : ℚ) (lo : List ℚ) : ℚ :=
  if r2m ≤ lo.length then
    if 0 < 120 - (now - lo.headD 0) then now1 + (120 - (now - lo.headD 0)) else now1
  else now1

/-- `RateLimit.wait_if_needed` with limits `rps` (short window, 1 s) and
`r2m` (long window, 120 s), entered at clock value `now`.  Returns the clock
value at which the request is recorded into both windows, and the updated
windows. -/
def wait_if_needed (rps r2m : Nat) (now : ℚ) (s : RLState) : ℚ × RLState :=
  let sh := pruneWindow 1 now s.short
  let lo := pruneWindow 120 now s.long
  let now2 := longAdjusted r2m now (shortAdjusted rps now sh) lo
  (now2, ⟨sh ++ [now2], lo ++ [now2]⟩)

/-- A sequential caller issuing one `wait_if_needed` per element of `ds`:
the k-th call enters at (previous admission clock) + (its delay).  Returns
the list of (admission clock, window state) pairs, in call order. -/
def runRL (rps r2m : Nat) : ℚ → RLState → List ℚ → List (ℚ × RLState)
  | _, _, [] => []
  | tPrev, s, d :: ds =>
    let r := wait_if_needed rps r2m (tPrev + d) s
    r :: runRL rps r2m r.1 r.2 ds

/-- Number of window timestamps younger than `w` as seen from clock `now`. -/
def youngCount (w now : ℚ) (ts : List ℚ) : Nat :=
  (ts.filter (fun t => decide (now - t < w))).length

/-- Invariant at the moment a request was recorded at clock `T`: both windows
are sorted lists of past instants, holding at most the budget's worth of
timestamps younger than their window length. -/
def RLInv (rps r2m : Nat) (T : ℚ) (s : RLState) : Prop :=
  List.Pairwise (· ≤ ·) s.short ∧ (∀ t ∈ s.short, t ≤ T) ∧
    youngCount 1 T s.short ≤ rps ∧
  List.Pairwise (· ≤ ·) s.long ∧ (∀ t ∈ s.long, t ≤ T) ∧
    youngCount 120 T s.long ≤ r2m

/-- Does any admission point of a run see more than `rps` short-window
timestamps younger than 1 s, or more than `r2m` long-window timestamps
younger than 120 s? -/
def budgetViolated (rps r2m : Nat) (l : List (ℚ × RLState)) : Bool :=
  l.any (fun p =>
    decide (rps < youngCount 1 p.1 p.2.short) ||
    decide (r2m < youngCount 120 p.1 p.2.long))

/-! ## API client: `RiotAPIClient._make_request` (api_client.py 52-85) -/

/-- What one `requests.get` can come back with, as far as the retry loop is
concerned.  `exn` is a transport-level exception. -/
inductive HttpReply where
  | success (body : String)
  | notFound
  | rateLimited (retryAfter : Nat)
  | failStatus (code : Nat)
  | exn (msg : String)
  deriving DecidableEq, Repr

/-- The retry loop of `_make_request`.  `reply i` is the server's reply to
the request issued while `retry_count = i`; `n` is `max_retries − retry_count`
(the loop guard `retry_count < max_retries`); `rc` is the current
`retry_count`.  Returns the call's result, the list of sleep durations in
order (`Retry-After` waits and `2 ** retry_count` backoffs), and the final
`retry_count`. -/
def makeRequestLoop (allow404 : Bool) (reply : Nat → HttpReply) :
    Nat → Nat → Except String (Option String) × List Nat × Nat
  | 0, rc => (.error "Failed to get response after 3 retries", [], rc)
  | n + 1, rc =>
    match reply rc with
    | .success b => (.ok (some b), [], rc)
    | .notFound =>
      if allow404 then (.ok none, [], rc)
      else
        let (r, sl, rc') := makeRequestLoop allow404 reply n (rc + 1)
        (r, 2 ^ (rc + 1) :: sl, rc')
    | .rateLimited ra =>
      let (r, sl, rc') := makeRequestLoop allow404 reply n (rc + 1)
      (r, ra :: 2 ^ (rc + 1) :: sl, rc')
    | .failStatus _ =>
      let (r, sl, rc') := makeRequestLoop allow404 reply n (rc + 1)
      (r, 2 ^ (rc + 1) :: sl, rc')
    | .exn _ =>
      let (r, sl, rc') := makeRequestLoop allow404 reply n (rc + 1)
      (r, 2 ^ (rc + 1) :: sl, rc')

/-- `RiotAPIClient._make_request` with `max_retries = 3`, entered with
`retry_count = 0`. -/
def make_request (allow404 : Bool) (reply : Nat → HttpReply) :
    Except String (Option String) × List Nat × Nat :=
  makeRequestLoop allow404 reply 3 0

/-! ## BFS scheduler: `LeagueBFS` (main.py 80-180)

Observable side effects are recorded as an event trace: dequeues, queue
checkpoints (`save_queue_state`), API fetches, record writes and enqueues.
Network replies come from an oracle so the theorems quantify over every
possible behaviour of the remote API. -/

/-- One observable action of a scheduler run. -/
inductive Event where
  | dequeue (p : String)
  | checkpoint (q : List String)
  | fetch (id : String)
  | saveRecords (m : String)
  | enqueue (p : String)
  | savePlayer (p : String)
  deriving DecidableEq, Repr

/-- Scheduler state: the in-memory queue and visited set of `LeagueBFS`,
the record store, the `Players.csv` key column, and the queue most recently
written by `save_queue_state`. -/
structure BfsSt where
  queue : List String
  visited : List String
  store : DMState
  playerStore : List String
  lastCheckpoint : Option (List String)
  deriving DecidableEq, Repr

/-- `DataManager.save_match`: append one row to the category's matches file. -/
def save_match (m : String) (qt : QT) (st : DMState) : DMState :=
  match qt with
  | .swiftplay => { st with swiftFile := st.swiftFile ++ [⟨m, ""⟩] }
  | .ranked => { st with rankedFile := st.rankedFile ++ [⟨m, ""⟩] }

/-- The remote API as the scheduler sees it: `get_match_ids` per player and
category, and the whole fetch-and-extract of one match (`get_match_details`
plus the per-participant rank/mastery lookups), either of which may raise. -/
structure MatchDetails where
  participants : List String
  deriving DecidableEq, Repr

structure CrawlOracle where
  matchIds : String → QT → Except String (List String)
  details : String → Except String MatchDetails

/-- `LeagueBFS._add_teammates_to_queue` (main.py 175-180). -/
def add_teammates_to_queue : List String → BfsSt → List Event × BfsSt
  | [], st => ([], st)
  | p :: ps, st =>
    if st.visited.contains p then add_teammates_to_queue ps st
    else
      let r := add_teammates_to_queue ps
        { st with queue := st.queue ++ [p], visited := p :: st.visited }
      (.enqueue p :: r.1, r.2)

/-- `LeagueBFS._process_matches` (main.py 138-173).  A known match is
recovered from the store without network traffic; a fresh match is fetched,
its participant rows and summary saved, the subject's own row located
(`next(...)`, which raises when absent — after the saves), and teammates
enqueued when `addQ` holds and the category is swiftplay.  Any raised error
propagates immediately, abandoning the remaining match ids. -/
def process_matches (O : CrawlOracle) (puuid : String) :
    List String → QT → Bool → BfsSt → List Event × BfsSt × Option String
  | [], _, _, st => ([], st, none)
  | m :: ms, qt, addQ, st =>
    let ke := match_exists st.store m qt
    let st1 := { st with store := ke.2 }
    if ke.1 then
      process_matches O puuid ms qt addQ st1
    else
      match O.details m with
      | .error e => ([.fetch m], st1, some e)
      | .ok md =>
        let st2 := { st1 with store := save_match m qt st1.store }
        if md.participants.contains puuid then
          let ts :=
            if addQ && (qt == QT.swiftplay) then
              add_teammates_to_queue md.participants st2
            else ([], st2)
          let rest := process_matches O puuid ms qt addQ ts.2
          (.fetch m :: .saveRecords m :: (ts.1 ++ rest.1), rest.2.1, rest.2.2)
        else
          ([.fetch m, .saveRecords m], st2, some ("no row for subject " ++ puuid))

/-- `LeagueBFS._process_player` (main.py 120-136): skip players already in
`Players.csv`; otherwise process the swiftplay matches (with discovery flag),
then the ranked matches (discovery always off), then save the aggregate. -/
def process_player (O : CrawlOracle) (p : String) (addQ : Bool) (st : BfsSt) :
    List Event × BfsSt × Option String :=
  if st.playerStore.contains p then ([], st, none)
  else
    match O.matchIds p .swiftplay with
    | .error e => ([.fetch p], st, some e)
    | .ok sIds =>
      let r1 := process_matches O p sIds .swiftplay addQ st
      match r1.2.2 with
      | some e => (.fetch p :: r1.1, r1.2.1, some e)
      | none =>
        match O.matchIds p .ranked with
        | .error e => (.fetch p :: (r1.1 ++ [.fetch p]), r1.2.1, some e)
        | .ok rIds =>
          let r2 := process_matches O p rIds .ranked false r1.2.1
          match r2.2.2 with
          | some e => (.fetch p :: (r1.1 ++ .fetch p :: r2.1), r2.2.1, some e)
          | none =>
            (.fetch p :: (r1.1 ++ .fetch p :: r2.1 ++ [.savePlayer p]),
             { r2.2.1 with playerStore := r2.2.1.playerStore ++ [p] }, none)

/-- How a `bfs` run ends: the queue drained, the fuel bound was hit while
work remained, or an error was re-raised out of the loop. -/
inductive BfsOutcome where
  | finished
  | fuelOut
  | failed (e : String)
  deriving DecidableEq, Repr

/-- The `while self.queue` loop of `LeagueBFS.bfs` (main.py 92-110), with a
fuel bound on the number of iterations.  Each iteration: pop the head,
checkpoint the remainder, possibly latch discovery off when the remaining
queue exceeds 1000, process the head; on error re-insert the head at the
front, checkpoint, and re-raise.  Returns (trace, outcome, discovery flag,
final state). -/
def bfs (O : CrawlOracle) : Nat → Bool → BfsSt → List Event × BfsOutcome × Bool × BfsSt
  | 0, addQ, st => ([], .fuelOut, addQ, st)
  | fuel + 1, addQ, st =>
    match st.queue with
    | [] => ([], .finished, addQ, st)
    | p :: rest =>
      let st1 := { st with queue := rest, lastCheckpoint := some rest }
      let addQ1 := if 1000 < rest.length then false else addQ
      let pr := process_player O p addQ1 st1
      match pr.2.2 with
      | some e =>
        let q2 := p :: pr.2.1.queue
        (.dequeue p :: .checkpoint rest :: (pr.1 ++ [.checkpoint q2]),
         .failed e, addQ1,
         { pr.2.1 with queue := q2, lastCheckpoint := some q2 })
      | none =>
        let br := bfs O fuel addQ1 pr.2.1
        (.dequeue p :: .checkpoint rest :: (pr.1 ++ br.1), br.2.1, br.2.2.1, br.2.2.2)

/-- `LeagueBFS.resume_from_queue` (main.py 27-42): give up when no saved
queue exists; otherwise the in-memory queue becomes the saved queue and the
visited set becomes exactly the puuid column of `Players.csv` — the resumed
queue's ids are NOT added to the visited set. -/
def resume_from_queue (savedQueue storedPlayers : List String) (dm : DMState) :
    Option BfsSt :=
  if savedQueue.isEmpty then none
  else some ⟨savedQueue, storedPlayers, dm, storedPlayers, none⟩

/-- Every dequeue event in a trace is immediately followed by a checkpoint
event — hence the checkpoint precedes every API fetch and record write of
the step, and the next dequeue. -/
def DCadj (l : List Event) : Prop :=
  ∀ i p, l.get? i = some (.dequeue p) → ∃ q, l.get? (i + 1) = some (.checkpoint q)

/-- A trace containing no enqueue events. -/
def NoEnq (l : List Event) : Prop := ∀ p, Event.enqueue p ∉ l

/-- Effect summary of one `process_matches` call: the visited set only grows,
queue growth is confined to freshly visited ids, the player table is
untouched, the trace holds no dequeues or checkpoints, and enqueues happen
only in swiftplay with the discovery flag on, for previously unvisited ids
that get marked visited. -/
def MStepOk (qt : QT) (addQ : Bool) (st : BfsSt)
    (r : List Event × BfsSt × Option String) : Prop :=
  (∀ x ∈ st.visited, x ∈ r.2.1.visited) ∧
  (∀ x ∈ r.2.1.queue, x ∈ st.queue ∨ x ∈ r.2.1.visited) ∧
  r.2.1.playerStore = st.playerStore ∧
  (∀ e ∈ r.1, (∀ q, e ≠ Event.dequeue q) ∧ (∀ q, e ≠ Event.checkpoint q)) ∧
  (∀ q, Event.enqueue q ∈ r.1 →
    addQ = true ∧ qt = QT.swiftplay ∧ q ∉ st.visited ∧ q ∈ r.2.1.visited)

/-- Effect summary of one `process_player` call for player `p`. -/
def PStepOk (p : String) (addQ : Bool) (st : BfsSt)
    (r : List Event × BfsSt × Option String) : Prop :=
  (∀ x ∈ st.visited, x ∈ r.2.1.visited) ∧
  (∀ x ∈ r.2.1.queue, x ∈ st.queue ∨ x ∈ r.2.1.visited) ∧
  (∀ x ∈ r.2.1.playerStore, x ∈ st.playerStore ∨ x = p) ∧
  (∀ e ∈ r.1, (∀ q, e ≠ Event.dequeue q) ∧ (∀ q, e ≠ Event.checkpoint q)) ∧
  (∀ q, Event.enqueue q ∈ r.1 → addQ = true ∧ q ∉ st.visited ∧ q ∈ r.2.1.visited)

/-! ## Helper lemmas -/

lemma contains_true_iff (l : List String) (a : String) : l.contains a = true ↔ a ∈ l := by
  simp [List.contains_iff_exists_mem_beq]

lemma keyExists_true_iff (s : List PMRow) (m : PMRow) :
    keyExists s m = true ↔ ∃ r ∈ s, r.matchId = m.matchId ∧ r.puuid = m.puuid := by
  simp [keyExists, List.any_eq_true]

lemma countKey_append (s t : List PMRow) (mid pid : String) :
    countKey (s ++ t) mid pid = countKey s mid pid + countKey t mid pid := by
  simp [countKey, List.filter_append]

lemma countKey_pos_iff (s : List PMRow) (mid pid : String) :
    0 < countKey s mid pid ↔ ∃ r ∈ s, r.matchId = mid ∧ r.puuid = pid := by
  unfold countKey
  rw [List.length_pos]
  constructor
  · intro h
    rcases List.exists_mem_of_ne_nil _ h with ⟨r, hr⟩
    rcases List.mem_filter.mp hr with ⟨hr1, hr2⟩
    simp only [Bool.and_eq_true, beq_iff_eq] at hr2
    exact ⟨r, hr1, hr2⟩
  · rintro ⟨r, hr, h1, h2⟩
    exact List.ne_nil_of_mem (List.mem_filter.mpr ⟨hr, by simp [h1, h2]⟩)

lemma keyTest_false_of_not_key {a : PMRow} {mid pid : String}
    (h : ¬(a.matchId = mid ∧ a.puuid = pid)) :
    (a.matchId == mid && a.puuid == pid) = false := by
  rcases not_and_or.mp h with hne | hne <;> simp [hne]

lemma countKey_cons (a : PMRow) (t : List PMRow) (mid pid : String) :
    countKey (a :: t) mid pid =
      (if a.matchId = mid ∧ a.puuid = pid then 1 else 0) + countKey t mid pid := by
  unfold countKey
  rw [List.filter_cons]
  by_cases h : a.matchId = mid ∧ a.puuid = pid
  · simp [h.1, h.2, Nat.add_comm]
  · simp [keyTest_false_of_not_key h, h]

lemma countKey_sublist {s t : List PMRow} (h : List.Sublist s t) (mid pid : String) :
    countKey s mid pid ≤ countKey t mid pid :=
  (h.filter _).length_le

lemma countKey_le_one_of_distinct (b : List PMRow) (mid pid : String)
    (h : distinctKeys b) : countKey b mid pid ≤ 1 := by
  induction b with
  | nil => simp [countKey]
  | cons a t ih =>
    rcases List.pairwise_cons.mp h with ⟨ha, ht⟩
    rw [countKey_cons]
    by_cases hk : a.matchId = mid ∧ a.puuid = pid
    · have ht0 : countKey t mid pid = 0 := by
        by_contra hpos
        rcases (countKey_pos_iff t mid pid).mp (Nat.pos_of_ne_zero hpos) with
          ⟨r, hr, hr1, hr2⟩
        rcases ha r hr with hne | hne
        · exact hne (hk.1.trans hr1.symm)
        · exact hne (hk.2.trans hr2.symm)
      rw [if_pos hk, ht0]
    · rw [if_neg hk]
      simpa using ih ht

lemma keyExists_of_countKey_pos {s : List PMRow} {m : PMRow}
    (h : 0 < countKey s m.matchId m.puuid) : keyExists s m = true := by
  rcases (countKey_pos_iff s m.matchId m.puuid).mp h with ⟨r, hr, h1, h2⟩
  exact (keyExists_true_iff s m).mpr ⟨r, hr, h1, h2⟩

lemma countKey_filter_of_absent (s b : List PMRow) (mid pid : String)
    (h0 : countKey s mid pid = 0) :
    countKey (b.filter (fun m => !(keyExists s m))) mid pid = countKey b mid pid := by
  induction b with
  | nil => rfl
  | cons m t ih =>
    rw [List.filter_cons]
    by_cases hk : m.matchId = mid ∧ m.puuid = pid
    · have hke : keyExists s m = false := by
        cases hkes : keyExists s m with
        | false => rfl
        | true =>
          rcases (keyExists_true_iff s m).mp hkes with ⟨r, hr, h1, h2⟩
          have : 0 < countKey s mid pid := (countKey_pos_iff s mid pid).mpr
            ⟨r, hr, h1.trans hk.1, h2.trans hk.2⟩
          omega
      rw [hke]
      simp only [Bool.not_false, if_pos]
      rw [countKey_cons, countKey_cons, if_pos hk, ih]
    · cases hke : keyExists s m with
      | true =>
        simp only [Bool.not_true, if_neg Bool.false_ne_true]
        rw [ih, countKey_cons, if_neg hk]
        omega
      | false =>
        simp only [Bool.not_false, if_pos]
        rw [countKey_cons, countKey_cons, if_neg hk, ih]

lemma keyExists_append (s t : List PMRow) (m : PMRow) :
    keyExists (s ++ t) m = (keyExists s m || keyExists t m) := by
  unfold keyExists
  exact List.any_append

lemma keyExists_self_mem {b : List PMRow} {m : PMRow} (hm : m ∈ b) :
    keyExists b m = true :=
  (keyExists_true_iff b m).mpr ⟨m, hm, rfl, rfl⟩

lemma keyExists_save_of_mem (s b : List PMRow) (m : PMRow) (hm : m ∈ b) :
    keyExists (save_player_matches s b) m = true := by
  rw [save_player_matches, keyExists_append]
  cases hke : keyExists s m with
  | true => simp
  | false =>
    have hmf : m ∈ b.filter (fun m' => !(keyExists s m')) :=
      List.mem_filter.mpr ⟨hm, by simp [hke]⟩
    simp [keyExists_self_mem hmf]

/-! ## Claim theorems -/

/-- Claim C3, counterexample: the dedup filter of `save_player_matches` only
checks the rows already stored, not the incoming batch against itself, so a
batch holding the same (matchId, puuid) key twice stores two rows for that
key even when called twice with the same rows — not exactly one. -/
theorem c3_counterexample :
    countKey
      (save_player_matches
        (save_player_matches [] [⟨"m1", "p1", "x"⟩, ⟨"m1", "p1", "y"⟩])
        [⟨"m1", "p1", "x"⟩, ⟨"m1", "p1", "y"⟩])
      "m1" "p1" = 2 := by decide

/-- Claim C3 (amended): `save_player_matches` filters the batch against the
rows already stored, so a repeated call appends nothing; and provided the
batch's own (matchId, puuid) keys are pairwise distinct, the store keeps at
most one row per key (exactly one for a key that was absent and is supplied). -/
theorem c3_save_player_matches_dedup :
    (∀ s b : List PMRow,
        save_player_matches (save_player_matches s b) b = save_player_matches s b) ∧
    (∀ (s b : List PMRow) (mid pid : String), countKey s mid pid ≤ 1 →
        distinctKeys b → countKey (save_player_matches s b) mid pid ≤ 1) ∧
    (∀ (s b : List PMRow) (mid pid : String), countKey s mid pid = 0 →
        distinctKeys b → (∃ m ∈ b, m.matchId = mid ∧ m.puuid = pid) →
        countKey (save_player_matches s b) mid pid = 1) := by
  refine ⟨?_, ?_, ?_⟩
  · intro s b
    have hnil : b.filter (fun m => !(keyExists (save_player_matches s b) m)) = [] := by
      rw [List.filter_eq_nil_iff]
      intro m hm
      simp [keyExists_save_of_mem s b m hm]
    conv_lhs => rw [save_player_matches, hnil]
    exact List.append_nil _
  · intro s b mid pid hs hb
    rw [save_player_matches, countKey_append]
    by_cases h0 : countKey s mid pid = 0
    · have hsub : List.Sublist (b.filter (fun m => !(keyExists s m))) b :=
        List.filter_sublist b
      have := countKey_sublist hsub mid pid
      have := countKey_le_one_of_distinct b mid pid hb
      omega
    · have h1 : countKey s mid pid = 1 := by omega
      have hf0 : countKey (b.filter (fun m => !(keyExists s m))) mid pid = 0 := by
        by_contra hpos
        rcases (countKey_pos_iff _ mid pid).mp (Nat.pos_of_ne_zero hpos) with
          ⟨r, hr, h1', h2'⟩
        rcases List.mem_filter.mp hr with ⟨_, hkeep⟩
        have : keyExists s r = true := keyExists_of_countKey_pos (by rw [h1', h2']; omega)
        simp [this] at hkeep
      omega
  · intro s b mid pid h0 hb hmem
    rw [save_player_matches, countKey_append, h0,
      countKey_filter_of_absent s b mid pid h0]
    have hle := countKey_le_one_of_distinct b mid pid hb
    have hpos := (countKey_pos_iff b mid pid).mpr hmem
    omega

/-- Claim C3, witness for the amended theorem at a concrete store and batch. -/
theorem c3_witness :
    countKey [] "m1" "p1" = 0 ∧ distinctKeys [⟨"m1", "p1", "x"⟩] ∧
    countKey (save_player_matches [] [⟨"m1", "p1", "x"⟩]) "m1" "p1" = 1 := by
  refine ⟨by decide, by simp [distinctKeys], ?_⟩
  exact c3_save_player_matches_dedup.2.2 [] [⟨"m1", "p1", "x"⟩] "m1" "p1" (by decide)
    (by simp [distinctKeys]) ⟨⟨"m1", "p1", "x"⟩, by simp, rfl, rfl⟩

/-- Claim C9, counterexample: an uncaught error reaching `main` is swallowed
by its `except Exception` handler, which only logs; `main` then returns
normally, so the interpreter exits with status 0, not non-zero. -/
theorem c9_counterexample :
    (mainRun (.error "boom")).1 = 0 ∧
    (mainRun (.error "boom")).2 = ["Program terminated with error: boom"] :=
  ⟨rfl, rfl⟩

/-- Claim C9 (amended): every top-level outcome — completion, interrupt, or
error — yields exit status 0; errors are logged but the exit status does not
distinguish an error from natural queue exhaustion. -/
theorem c9_exit_status :
    (∀ o : RunOutcome, (mainRun o).1 = 0) ∧
    (∀ m, (mainRun (.error m)).2 = ["Program terminated with error: " ++ m]) :=
  ⟨fun o => by cases o <;> rfl, fun _ => rfl⟩

/-- Claim C10: the match-existence index is keyed by matchId alone: the cache
is hydrated from both category partitions, a cache hit answers `true` for
either category, and a successful per-file lookup adds the id to the shared
cache. -/
theorem c10_match_cache_shared :
    (∀ (st : DMState) (mid : String), st.cache.contains mid = true →
        ∀ qt, (match_exists st mid qt).1 = true) ∧
    (∀ (swift ranked : List MatchRow) (mid : String),
        (swift.map MatchRow.matchId).contains mid = true ∨
        (ranked.map MatchRow.matchId).contains mid = true →
        (initialize_cache swift ranked).cache.contains mid = true) ∧
    (∀ (st : DMState) (mid : String) (qt : QT), (match_exists st mid qt).1 = true →
        (match_exists st mid qt).2.cache.contains mid = true) := by
  refine ⟨?_, ?_, ?_⟩
  · intro st mid h qt
    unfold match_exists
    rw [h]
    simp
  · intro swift ranked mid h
    rw [contains_true_iff]
    simp only [initialize_cache, List.mem_append]
    rcases h with h | h
    · exact Or.inl ((contains_true_iff _ _).mp h)
    · exact Or.inr ((contains_true_iff _ _).mp h)
  · intro st mid qt h
    unfold match_exists at h ⊢
    split at h
    · rename_i hcond
      rw [if_pos hcond]
      exact hcond
    · rename_i hcond
      split at h
      · rename_i hcond2
        rw [if_neg hcond, if_pos hcond2]
        rw [contains_true_iff]
        simp
      · simp at h

/-- Claim C10, witness: a concrete store whose cache holds a match id that
only the swiftplay partition ever stored still answers `true` for ranked. -/
theorem c10_witness :
    (DMState.cache ⟨["m1"], [⟨"m1", ""⟩], []⟩).contains "m1" = true ∧
    (match_exists ⟨["m1"], [⟨"m1", ""⟩], []⟩ "m1" QT.ranked).1 = true := by
  refine ⟨by decide, ?_⟩
  exact c10_match_cache_shared.1 ⟨["m1"], [⟨"m1", ""⟩], []⟩ "m1" (by decide) QT.ranked

lemma swiftplayLoop_totals (l : List PMatch) (t : Totals) (tier rank : String)
    (lvl : Nat) :
    (swiftplayLoop l t tier rank lvl).1 =
      ⟨t.kills + sumKills l, t.deaths + sumDeaths l,
       t.assists + sumAssists l, t.wins + sumWins l⟩ := by
  induction l generalizing t tier rank lvl with
  | nil => simp [swiftplayLoop, sumKills, sumDeaths, sumAssists, sumWins]
  | cons m ms ih =>
    simp only [swiftplayLoop]
    split
    · rw [ih]
      simp only [bumpTotals, sumKills, sumDeaths, sumAssists, sumWins,
        List.map_cons, List.sum_cons, Totals.mk.injEq]
      omega
    · rw [ih]
      simp only [bumpTotals, sumKills, sumDeaths, sumAssists, sumWins,
        List.map_cons, List.sum_cons, Totals.mk.injEq]
      omega

lemma rankedLoop_totals (l : List PMatch) (t : Totals) :
    rankedLoop l t =
      ⟨t.kills + sumKills l, t.deaths + sumDeaths l,
       t.assists + sumAssists l, t.wins + sumWins l⟩ := by
  induction l generalizing t with
  | nil => simp [rankedLoop, sumKills, sumDeaths, sumAssists, sumWins]
  | cons m ms ih =>
    rw [rankedLoop, ih]
    simp only [bumpTotals, sumKills, sumDeaths, sumAssists, sumWins,
      List.map_cons, List.sum_cons, Totals.mk.injEq]
    omega

set_option maxHeartbeats 2000000 in
/-- Claim C6: kill/death and assist/death ratios divide by `max 1 deaths`
(so 0 deaths and N kills give kill/death exactly N), the win/loss ratio
divides by `max 1 (games − wins)`, and a player with zero ranked matches gets
`none` in every ranked field of the player summary. -/
theorem c6_aggregate_ratios (puuid : String) (s r : List PMatch) :
    (aggregate_player_data puuid s r).swiftplay_kd =
      (sumKills s : ℚ) / ((max 1 (sumDeaths s) : Nat) : ℚ) ∧
    (aggregate_player_data puuid s r).swiftplay_ad =
      (sumAssists s : ℚ) / ((max 1 (sumDeaths s) : Nat) : ℚ) ∧
    (aggregate_player_data puuid s r).swiftplay_win_loss_ratio =
      (sumWins s : ℚ) / ((max 1 (s.length - sumWins s) : Nat) : ℚ) ∧
    (sumDeaths s = 0 →
      (aggregate_player_data puuid s r).swiftplay_kd = (sumKills s : ℚ)) ∧
    (r ≠ [] →
      (aggregate_player_data puuid s r).ranked_kd =
        some ((sumKills r : ℚ) / ((max 1 (sumDeaths r) : Nat) : ℚ)) ∧
      (aggregate_player_data puuid s r).ranked_ad =
        some ((sumAssists r : ℚ) / ((max 1 (sumDeaths r) : Nat) : ℚ)) ∧
      (aggregate_player_data puuid s r).ranked_win_loss_ratio =
        some ((sumWins r : ℚ) / ((max 1 (r.length - sumWins r) : Nat) : ℚ))) ∧
    (r = [] →
      (aggregate_player_data puuid s r).ranked_kills = none ∧
      (aggregate_player_data puuid s r).ranked_deaths = none ∧
      (aggregate_player_data puuid s r).ranked_assists = none ∧
      (aggregate_player_data puuid s r).ranked_kd = none ∧
      (aggregate_player_data puuid s r).ranked_ad = none ∧
      (aggregate_player_data puuid s r).ranked_kda = none ∧
      (aggregate_player_data puuid s r).ranked_kad = none ∧
      (aggregate_player_data puuid s r).ranked_win_loss_ratio = none) := by
  rcases hsw : swiftplayLoop s ⟨0, 0, 0, 0⟩ "UNRANKED" "UNRANKED" 0 with
    ⟨tot, tier2, rank2, lvl2⟩
  have htot : tot = ⟨sumKills s, sumDeaths s, sumAssists s, sumWins s⟩ := by
    have h := swiftplayLoop_totals s ⟨0, 0, 0, 0⟩ "UNRANKED" "UNRANKED" 0
    rw [hsw] at h
    simpa using h
  subst htot
  cases r with
  | nil =>
    refine ⟨?_, ?_, ?_, ?_, ?_, ?_⟩
    · simp [aggregate_player_data, hsw]
    · simp [aggregate_player_data, hsw]
    · simp [aggregate_player_data, hsw]
    · intro h0
      simp [aggregate_player_data, hsw, h0]
    · intro h
      exact absurd rfl h
    · intro _
      refine ⟨?_, ?_, ?_, ?_, ?_, ?_, ?_, ?_⟩ <;> simp [aggregate_player_data, hsw]
  | cons m rt =>
    have hr := rankedLoop_totals (m :: rt) ⟨0, 0, 0, 0⟩
    simp only [Nat.zero_add] at hr
    refine ⟨?_, ?_, ?_, ?_, ?_, ?_⟩
    · simp [aggregate_player_data, hsw]
    · simp [aggregate_player_data, hsw]
    · simp [aggregate_player_data, hsw]
    · intro h0
      simp [aggregate_player_data, hsw, h0]
    · intro _
      refine ⟨?_, ?_, ?_⟩ <;> simp [aggregate_player_data, hsw, hr]
    · intro h
      exact absurd h (List.cons_ne_nil m rt)

/-- Claim C6, witness: a swiftplay history with 3 kills and 0 deaths gives a
kill/death ratio of exactly 3, and an empty ranked history gives `none`
ranked fields. -/
theorem c6_witness :
    sumDeaths [⟨3, 0, 1, true, "GOLD", "I", 30⟩] = 0 ∧
    (aggregate_player_data "p" [⟨3, 0, 1, true, "GOLD", "I", 30⟩] []).swiftplay_kd = 3 ∧
    (aggregate_player_data "p" [⟨3, 0, 1, true, "GOLD", "I", 30⟩] []).ranked_kd = none := by
  have h := c6_aggregate_ratios "p" [⟨3, 0, 1, true, "GOLD", "I", 30⟩] []
  refine ⟨by decide, ?_, (h.2.2.2.2.2 rfl).2.2.2.1⟩
  have := h.2.2.2.1 (by decide)
  simpa using this

/-- Claim C4, counterexample: in `_make_request` a 429 falls through to the
`retry_count += 1` line, so it does consume the 3-attempt budget: three
consecutive 429s exhaust the budget and raise, and a single 429 followed by
a success leaves `retry_count = 1`, not 0. -/
theorem c4_counterexample :
    (make_request false
        (fun i => if i < 3 then HttpReply.rateLimited 2 else .success "ok")).1 =
      .error "Failed to get response after 3 retries" ∧
    (make_request false
        (fun i => if i = 0 then HttpReply.rateLimited 2 else .success "ok")).2.2 = 1 := by
  constructor <;> rfl

/-- Claim C4 (amended): a 429 makes the client sleep the server-provided
`Retry-After` and retry the same call, but the iteration counts against the
3-attempt budget and additionally incurs the exponential backoff sleep
`2 ^ retry_count`; a single 429 then a success therefore succeeds having
consumed one of the 3 attempts, with sleeps `[Retry-After, 2]`. -/
theorem c4_rate_limited_consumes_budget :
    (∀ (allow404 : Bool) (reply : Nat → HttpReply) (n rc ra : Nat),
        reply rc = .rateLimited ra →
        makeRequestLoop allow404 reply (n + 1) rc =
          ((makeRequestLoop allow404 reply n (rc + 1)).1,
           ra :: 2 ^ (rc + 1) :: (makeRequestLoop allow404 reply n (rc + 1)).2.1,
           (makeRequestLoop allow404 reply n (rc + 1)).2.2)) ∧
    (∀ (ra : Nat) (b : String),
        make_request false
            (fun i => if i = 0 then HttpReply.rateLimited ra else .success b) =
          (.ok (some b), [ra, 2], 1)) := by
  constructor
  · intro allow404 reply n rc ra h
    rcases hm : makeRequestLoop allow404 reply n (rc + 1) with ⟨r, sl, rc'⟩
    simp [makeRequestLoop, h, hm]
  · intro ra b
    rfl

/-- Claim C4, witness for the amended theorem at a concrete reply stream. -/
theorem c4_witness :
    (fun i => if i = 0 then HttpReply.rateLimited 7 else HttpReply.success "b") 0 =
      HttpReply.rateLimited 7 ∧
    makeRequestLoop false
        (fun i => if i = 0 then HttpReply.rateLimited 7 else HttpReply.success "b")
        (2 + 1) 0 =
      ((makeRequestLoop false
          (fun i => if i = 0 then HttpReply.rateLimited 7 else HttpReply.success "b")
          2 1).1,
       7 :: 2 ^ 1 ::
        (makeRequestLoop false
          (fun i => if i = 0 then HttpReply.rateLimited 7 else HttpReply.success "b")
          2 1).2.1,
       (makeRequestLoop false
          (fun i => if i = 0 then HttpReply.rateLimited 7 else HttpReply.success "b")
          2 1).2.2) :=
  ⟨rfl, c4_rate_limited_consumes_budget.1 false
    (fun i => if i = 0 then HttpReply.rateLimited 7 else HttpReply.success "b")
    2 0 7 rfl⟩

/-! ## Scheduler lemmas -/

lemma add_teammates_visited_mono (ps : List String) (st : BfsSt) :
    ∀ x ∈ st.visited, x ∈ (add_teammates_to_queue ps st).2.visited := by
  induction ps generalizing st with
  | nil => intro x hx; exact hx
  | cons p ps ih =>
    intro x hx
    cases hc : st.visited.contains p with
    | true =>
      simp only [add_teammates_to_queue, hc, if_true]
      exact ih st x hx
    | false =>
      simp only [add_teammates_to_queue, hc, Bool.false_eq_true, if_false]
      exact ih _ x (List.mem_cons_of_mem p hx)

lemma add_teammates_fields (ps : List String) (st : BfsSt) :
    (add_teammates_to_queue ps st).2.store = st.store ∧
    (add_teammates_to_queue ps st).2.playerStore = st.playerStore ∧
    (add_teammates_to_queue ps st).2.lastCheckpoint = st.lastCheckpoint := by
  induction ps generalizing st with
  | nil => exact ⟨rfl, rfl, rfl⟩
  | cons p ps ih =>
    cases hc : st.visited.contains p with
    | true =>
      simp only [add_teammates_to_queue, hc, if_true]
      exact ih st
    | false =>
      simp only [add_teammates_to_queue, hc, Bool.false_eq_true, if_false]
      exact ih _

lemma add_teammates_queue_spec (ps : List String) (st : BfsSt) :
    ∀ x ∈ (add_teammates_to_queue ps st).2.queue,
      x ∈ st.queue ∨ x ∈ (add_teammates_to_queue ps st).2.visited := by
  induction ps generalizing st with
  | nil => intro x hx; exact Or.inl hx
  | cons p ps ih =>
    intro x hx
    cases hc : st.visited.contains p with
    | true =>
      simp only [add_teammates_to_queue, hc, if_true] at hx ⊢
      exact ih st x hx
    | false =>
      simp only [add_teammates_to_queue, hc, Bool.false_eq_true, if_false] at hx ⊢
      rcases ih _ x hx with h | h
      · rcases List.mem_append.mp h with h' | h'
        · exact Or.inl h'
        · have hx' : x = p := by simpa using h'
          subst hx'
          exact Or.inr (add_teammates_visited_mono ps _ x (List.mem_cons_self x _))
      · exact Or.inr h

lemma add_teammates_events (ps : List String) (st : BfsSt) :
    ∀ e ∈ (add_teammates_to_queue ps st).1,
      ∃ q, e = Event.enqueue q ∧ q ∉ st.visited ∧
        q ∈ (add_teammates_to_queue ps st).2.visited := by
  induction ps generalizing st with
  | nil => intro e he; simp [add_teammates_to_queue] at he
  | cons p ps ih =>
    intro e he
    cases hc : st.visited.contains p with
    | true =>
      simp only [add_teammates_to_queue, hc, if_true] at he ⊢
      exact ih st e he
    | false =>
      simp only [add_teammates_to_queue, hc, Bool.false_eq_true, if_false] at he ⊢
      rcases List.mem_cons.mp he with h | h
      · refine ⟨p, h, ?_, ?_⟩
        · intro hmem
          have := (contains_true_iff st.visited p).mpr hmem
          rw [hc] at this
          exact Bool.false_ne_true this
        · exact add_teammates_visited_mono ps _ p (List.mem_cons_self p _)
      · rcases ih _ e h with ⟨q, heq, hnv, hv⟩
        exact ⟨q, heq, fun hmem => hnv (List.mem_cons_of_mem p hmem), hv⟩

lemma MStepOk_congr {qt : QT} {addQ : Bool} {st st' : BfsSt}
    {r : List Event × BfsSt × Option String} (h : MStepOk qt addQ st' r)
    (hv : st'.visited = st.visited) (hq : st'.queue = st.queue)
    (hp : st'.playerStore = st.playerStore) : MStepOk qt addQ st r := by
  unfold MStepOk at h ⊢
  rw [hv, hq, hp] at h
  exact h

lemma process_matches_ok (O : CrawlOracle) (puuid : String) (ids : List String)
    (qt : QT) (addQ : Bool) (st : BfsSt) :
    MStepOk qt addQ st (process_matches O puuid ids qt addQ st) := by
  induction ids generalizing st with
  | nil =>
    exact ⟨fun x hx => hx, fun x hx => Or.inl hx, rfl,
      fun e he => absurd he (List.not_mem_nil e), fun q hq => absurd hq (List.not_mem_nil _)⟩
  | cons m ms ih =>
    cases hk : (match_exists st.store m qt).1 with
    | true =>
      simp only [process_matches, hk, if_true]
      exact MStepOk_congr (ih _) rfl rfl rfl
    | false =>
      cases hd : O.details m with
      | error e =>
        simp only [process_matches, hk, Bool.false_eq_true, if_false, hd]
        refine ⟨fun x hx => hx, fun x hx => Or.inl hx, rfl, ?_, ?_⟩
        · intro ev hev
          rcases List.mem_singleton.mp hev with rfl
          exact ⟨fun q h => Event.noConfusion h, fun q h => Event.noConfusion h⟩
        · intro q hq
          rcases List.mem_singleton.mp hq with h
          exact absurd h (fun h => Event.noConfusion h)
      | ok md =>
        cases hp : md.participants.contains puuid with
        | false =>
          simp only [process_matches, hk, Bool.false_eq_true, if_false, hd, hp]
          refine ⟨fun x hx => hx, fun x hx => Or.inl hx, rfl, ?_, ?_⟩
          · intro ev hev
            rcases List.mem_cons.mp hev with rfl | hev
            · exact ⟨fun q h => Event.noConfusion h, fun q h => Event.noConfusion h⟩
            · rcases List.mem_singleton.mp hev with rfl
              exact ⟨fun q h => Event.noConfusion h, fun q h => Event.noConfusion h⟩
          · intro q hq
            rcases List.mem_cons.mp hq with h | hq
            · exact absurd h.symm (fun h => Event.noConfusion h)
            · rcases List.mem_singleton.mp hq with h
              exact absurd h (fun h => Event.noConfusion h)
        | true =>
          cases hg : (addQ && (qt == QT.swiftplay)) with
          | false =>
            simp only [process_matches, hk, Bool.false_eq_true, if_false, hd, hp,
              if_true, hg]
            rcases ih ({ st with store := save_match m qt (match_exists st.store m qt).2 }) with
              ⟨h1, h2, h3, h4, h5⟩
            refine ⟨h1, h2, h3, ?_, ?_⟩
            · intro ev hev
              rcases List.mem_cons.mp hev with rfl | hev
              · exact ⟨fun q h => Event.noConfusion h, fun q h => Event.noConfusion h⟩
              rcases List.mem_cons.mp hev with rfl | hev
              · exact ⟨fun q h => Event.noConfusion h, fun q h => Event.noConfusion h⟩
              rcases List.mem_append.mp hev with hev | hev
              · simp at hev
              · exact h4 ev hev
            · intro q hq
              rcases List.mem_cons.mp hq with h | hq
              · exact absurd h.symm (fun h => Event.noConfusion h)
              rcases List.mem_cons.mp hq with h | hq
              · exact absurd h.symm (fun h => Event.noConfusion h)
              rcases List.mem_append.mp hq with hq | hq
              · simp at hq
              · exact h5 q hq
          | true =>
            simp only [process_matches, hk, Bool.false_eq_true, if_false, hd, hp,
              if_true, hg]
            have hband := Bool.and_eq_true_iff.mp hg
            have hqt : qt = QT.swiftplay := by
              have := hband.2
              simpa using this
            set st2 : BfsSt :=
              { st with store := save_match m qt (match_exists st.store m qt).2 } with hst2
            have hmono := add_teammates_visited_mono md.participants st2
            have hqs := add_teammates_queue_spec md.participants st2
            have hevs := add_teammates_events md.participants st2
            rcases ih ((add_teammates_to_queue md.participants st2).2) with
              ⟨h1, h2, h3, h4, h5⟩
            have hfields := add_teammates_fields md.participants st2
            refine ⟨?_, ?_, ?_, ?_, ?_⟩
            · intro x hx
              exact h1 x (hmono x hx)
            · intro x hx
              rcases h2 x hx with hx' | hx'
              · rcases hqs x hx' with hx'' | hx''
                · exact Or.inl hx''
                · exact Or.inr (h1 x hx'')
              · exact Or.inr hx'
            · rw [h3, hfields.2.1]
            · intro ev hev
              rcases List.mem_cons.mp hev with rfl | hev
              · exact ⟨fun q h => Event.noConfusion h, fun q h => Event.noConfusion h⟩
              rcases List.mem_cons.mp hev with rfl | hev
              · exact ⟨fun q h => Event.noConfusion h, fun q h => Event.noConfusion h⟩
              rcases List.mem_append.mp hev with hev | hev
              · rcases hevs ev hev with ⟨q, rfl, _, _⟩
                exact ⟨fun q' h => Event.noConfusion h, fun q' h => Event.noConfusion h⟩
              · exact h4 ev hev
            · intro q hq
              rcases List.mem_cons.mp hq with h | hq
              · exact absurd h.symm (fun h => Event.noConfusion h)
              rcases List.mem_cons.mp hq with h | hq
              · exact absurd h.symm (fun h => Event.noConfusion h)
              rcases List.mem_append.mp hq with hq | hq
              · rcases hevs _ hq with ⟨q', heq, hnv, hv⟩
                have : q' = q := by
                  cases heq
                  rfl
                subst this
                exact ⟨hband.1, hqt, hnv, h1 q' hv⟩
              · rcases h5 q hq with ⟨ha, hb, hnv, hv⟩
                refine ⟨ha, hb, fun hmem => hnv (hmono q hmem), hv⟩

lemma process_player_ok (O : CrawlOracle) (p : String) (addQ : Bool) (st : BfsSt) :
    PStepOk p addQ st (process_player O p addQ st) := by
  unfold process_player
  cases hps : st.playerStore.contains p with
  | true =>
    simp only [hps, if_true]
    exact ⟨fun x hx => hx, fun x hx => Or.inl hx, fun x hx => Or.inl hx,
      fun e he => absurd he (List.not_mem_nil e), fun q hq => absurd hq (List.not_mem_nil _)⟩
  | false =>
    simp only [hps, Bool.false_eq_true, if_false]
    cases hs : O.matchIds p .swiftplay with
    | error e =>
      refine ⟨fun x hx => hx, fun x hx => Or.inl hx, fun x hx => Or.inl hx, ?_, ?_⟩
      · intro ev hev
        rcases List.mem_singleton.mp hev with rfl
        exact ⟨fun q h => Event.noConfusion h, fun q h => Event.noConfusion h⟩
      · intro q hq
        rcases List.mem_singleton.mp hq with h
        exact absurd h (fun h => Event.noConfusion h)
    | ok sIds =>
      rcases process_matches_ok O p sIds .swiftplay addQ st with ⟨m1, m2, m3, m4, m5⟩
      cases herr1 : (process_matches O p sIds QT.swiftplay addQ st).2.2 with
      | some e =>
        simp only [herr1]
        refine ⟨m1, m2, ?_, ?_, ?_⟩
        · intro x hx
          rw [m3] at hx
          exact Or.inl hx
        · intro ev hev
          rcases List.mem_cons.mp hev with rfl | hev
          · exact ⟨fun q h => Event.noConfusion h, fun q h => Event.noConfusion h⟩
          · exact m4 ev hev
        · intro q hq
          rcases List.mem_cons.mp hq with h | hq
          · exact absurd h.symm (fun h => Event.noConfusion h)
          · rcases m5 q hq with ⟨ha, _, hnv, hv⟩
            exact ⟨ha, hnv, hv⟩
      | none =>
        cases hrk : O.matchIds p .ranked with
        | error e =>
          simp only [herr1, hrk]
          refine ⟨m1, m2, ?_, ?_, ?_⟩
          · intro x hx
            rw [m3] at hx
            exact Or.inl hx
          · intro ev hev
            rcases List.mem_cons.mp hev with rfl | hev
            · exact ⟨fun q h => Event.noConfusion h, fun q h => Event.noConfusion h⟩
            rcases List.mem_append.mp hev with hev | hev
            · exact m4 ev hev
            · rcases List.mem_singleton.mp hev with rfl
              exact ⟨fun q h => Event.noConfusion h, fun q h => Event.noConfusion h⟩
          · intro q hq
            rcases List.mem_cons.mp hq with h | hq
            · exact absurd h.symm (fun h => Event.noConfusion h)
            rcases List.mem_append.mp hq with hq | hq
            · rcases m5 q hq with ⟨ha, _, hnv, hv⟩
              exact ⟨ha, hnv, hv⟩
            · rcases List.mem_singleton.mp hq with h
              exact absurd h (fun h => Event.noConfusion h)
        | ok rIds =>
          rcases process_matches_ok O p rIds .ranked false
              (process_matches O p sIds QT.swiftplay addQ st).2.1 with
            ⟨n1, n2, n3, n4, n5⟩
          cases herr2 : (process_matches O p rIds QT.ranked false
              (process_matches O p sIds QT.swiftplay addQ st).2.1).2.2 with
          | some e =>
            simp only [herr1, hrk, herr2]
            refine ⟨fun x hx => n1 x (m1 x hx), ?_, ?_, ?_, ?_⟩
            · intro x hx
              rcases n2 x hx with hx' | hx'
              · rcases m2 x hx' with hx'' | hx''
                · exact Or.inl hx''
                · exact Or.inr (n1 x hx'')
              · exact Or.inr hx'
            · intro x hx
              rw [n3, m3] at hx
              exact Or.inl hx
            · intro ev hev
              rcases List.mem_cons.mp hev with rfl | hev
              · exact ⟨fun q h => Event.noConfusion h, fun q h => Event.noConfusion h⟩
              rcases List.mem_append.mp hev with hev | hev
              · exact m4 ev hev
              rcases List.mem_cons.mp hev with rfl | hev
              · exact ⟨fun q h => Event.noConfusion h, fun q h => Event.noConfusion h⟩
              · exact n4 ev hev
            · intro q hq
              rcases List.mem_cons.mp hq with h | hq
              · exact absurd h.symm (fun h => Event.noConfusion h)
              rcases List.mem_append.mp hq with hq | hq
              · rcases m5 q hq with ⟨ha, _, hnv, hv⟩
                exact ⟨ha, hnv, n1 q hv⟩
              rcases List.mem_cons.mp hq with h | hq
              · exact absurd h.symm (fun h => Event.noConfusion h)
              · rcases n5 q hq with ⟨ha, _⟩
                exact absurd ha (by simp)
          | none =>
            simp only [herr1, hrk, herr2]
            refine ⟨fun x hx => n1 x (m1 x hx), ?_, ?_, ?_, ?_⟩
            · intro x hx
              rcases n2 x hx with hx' | hx'
              · rcases m2 x hx' with hx'' | hx''
                · exact Or.inl hx''
                · exact Or.inr (n1 x hx'')
              · exact Or.inr hx'
            · intro x hx
              rcases List.mem_append.mp hx with hx | hx
              · rw [n3, m3] at hx
                exact Or.inl hx
              · rcases List.mem_singleton.mp hx with rfl
                exact Or.inr rfl
            · intro ev hev
              rcases List.mem_cons.mp hev with rfl | hev
              · exact ⟨fun q h => Event.noConfusion h, fun q h => Event.noConfusion h⟩
              rcases List.mem_append.mp hev with hev | hev
              · rcases List.mem_append.mp hev with hev | hev
                · exact m4 ev hev
                rcases List.mem_cons.mp hev with rfl | hev
                · exact ⟨fun q h => Event.noConfusion h, fun q h => Event.noConfusion h⟩
                · exact n4 ev hev
              · rcases List.mem_singleton.mp hev with rfl
                exact ⟨fun q h => Event.noConfusion h, fun q h => Event.noConfusion h⟩
            · intro q hq
              rcases List.mem_cons.mp hq with h | hq
              · exact absurd h.symm (fun h => Event.noConfusion h)
              rcases List.mem_append.mp hq with hq | hq
              · rcases List.mem_append.mp hq with hq | hq
                · rcases m5 q hq with ⟨ha, _, hnv, hv⟩
                  exact ⟨ha, hnv, n1 q hv⟩
                rcases List.mem_cons.mp hq with h | hq
                · exact absurd h.symm (fun h => Event.noConfusion h)
                · rcases n5 q hq with ⟨ha, _⟩
                  exact absurd ha (by simp)
              · rcases List.mem_singleton.mp hq with h
                exact absurd h (fun h => Event.noConfusion h)

lemma dcadj_nil : DCadj [] := by
  intro i p h
  simp at h

lemma dcadj_cons_nondeq {x : Event} {l : List Event} (hx : ∀ p, x ≠ Event.dequeue p)
    (hl : DCadj l) : DCadj (x :: l) := by
  intro i p h
  cases i with
  | zero =>
    rw [List.get?_cons_zero] at h
    injection h with h'
    exact absurd h' (hx p)
  | succ j =>
    rw [List.get?_cons_succ] at h
    rcases hl j p h with ⟨q, hq⟩
    exact ⟨q, by rw [List.get?_cons_succ]; exact hq⟩

lemma dcadj_cons_deq {p0 : String} {q0 : List String} {l : List Event}
    (hl : DCadj (Event.checkpoint q0 :: l)) :
    DCadj (Event.dequeue p0 :: Event.checkpoint q0 :: l) := by
  intro i p h
  cases i with
  | zero => exact ⟨q0, rfl⟩
  | succ j =>
    rw [List.get?_cons_succ] at h
    rcases hl j p h with ⟨q, hq⟩
    exact ⟨q, by rw [List.get?_cons_succ]; exact hq⟩

lemma dcadj_append_nondeq {xs ys : List Event}
    (hxs : ∀ e ∈ xs, ∀ p, e ≠ Event.dequeue p) (hys : DCadj ys) :
    DCadj (xs ++ ys) := by
  induction xs with
  | nil => exact hys
  | cons x xs ih =>
    rw [List.cons_append]
    exact dcadj_cons_nondeq (hxs x (List.mem_cons_self x xs))
      (ih fun e he p => hxs e (List.mem_cons_of_mem x he) p)

lemma bfs_trace_dcadj (O : CrawlOracle) (fuel : Nat) (addQ : Bool) (st : BfsSt) :
    DCadj (bfs O fuel addQ st).1 := by
  induction fuel generalizing addQ st with
  | zero => exact dcadj_nil
  | succ n ih =>
    cases hq : st.queue with
    | nil =>
      simp only [bfs, hq]
      exact dcadj_nil
    | cons p rest =>
      simp only [bfs, hq]
      rcases process_player_ok O p (if 1000 < rest.length then false else addQ)
          { st with queue := rest, lastCheckpoint := some rest } with ⟨_, _, _, h4, _⟩
      cases herr : (process_player O p (if 1000 < rest.length then false else addQ)
          { st with queue := rest, lastCheckpoint := some rest }).2.2 with
      | some e =>
        simp only [herr]
        apply dcadj_cons_deq
        apply dcadj_cons_nondeq (fun q h => Event.noConfusion h)
        exact dcadj_append_nondeq (fun e' he q => (h4 e' he).1 q)
          (dcadj_cons_nondeq (fun q h => Event.noConfusion h) dcadj_nil)
      | none =>
        simp only [herr]
        apply dcadj_cons_deq
        apply dcadj_cons_nondeq (fun q h => Event.noConfusion h)
        exact dcadj_append_nondeq (fun e' he q => (h4 e' he).1 q) (ih _ _)

/-- Claim C1: in every `bfs` step the dequeue of the head is immediately
followed by the checkpoint of the remaining queue, before any fetch or record
write of that step and before the next dequeue; globally, every dequeue event
in a trace is immediately followed by a checkpoint event. -/
theorem c1_checkpoint_before_side_effects (O : CrawlOracle) (fuel : Nat)
    (addQ : Bool) (st : BfsSt) (p : String) (rest : List String)
    (h : st.queue = p :: rest) :
    (∃ tl, (bfs O (fuel + 1) addQ st).1 =
      Event.dequeue p :: Event.checkpoint rest :: tl) ∧
    DCadj (bfs O (fuel + 1) addQ st).1 := by
  constructor
  · simp only [bfs, h]
    cases herr : (process_player O p (if 1000 < rest.length then false else addQ)
        { st with queue := rest, lastCheckpoint := some rest }).2.2 with
    | some e =>
      simp only [herr]
      exact ⟨_, rfl⟩
    | none =>
      simp only [herr]
      exact ⟨_, rfl⟩
  · exact bfs_trace_dcadj O (fuel + 1) addQ st

/-- Claim C1, witness at a concrete one-element queue. -/
theorem c1_witness :
    (⟨["a"], ["a"], ⟨[], [], []⟩, [], none⟩ : BfsSt).queue = "a" :: [] ∧
    ((∃ tl, (bfs ⟨fun _ _ => Except.ok [], fun _ => Except.error "x"⟩ 1 true
        ⟨["a"], ["a"], ⟨[], [], []⟩, [], none⟩).1 =
      Event.dequeue "a" :: Event.checkpoint [] :: tl) ∧
     DCadj (bfs ⟨fun _ _ => Except.ok [], fun _ => Except.error "x"⟩ 1 true
        ⟨["a"], ["a"], ⟨[], [], []⟩, [], none⟩).1) :=
  ⟨rfl, c1_checkpoint_before_side_effects
    ⟨fun _ _ => Except.ok [], fun _ => Except.error "x"⟩ 0 true
    ⟨["a"], ["a"], ⟨[], [], []⟩, [], none⟩ "a" [] rfl⟩

/-- Claim C2: if processing the dequeued head raises, `bfs` re-inserts that
id at the front of the (possibly grown) queue, persists a checkpoint of the
resulting queue as the final trace event, and re-raises the error, ending
the run with nothing further processed. -/
theorem c2_error_requeue_halt (O : CrawlOracle) (fuel : Nat) (addQ : Bool)
    (st : BfsSt) (p : String) (rest : List String) (e : String)
    (pr : List Event × BfsSt × Option String) (h : st.queue = p :: rest)
    (hpr : process_player O p (if 1000 < rest.length then false else addQ)
      { st with queue := rest, lastCheckpoint := some rest } = pr)
    (herr : pr.2.2 = some e) :
    bfs O (fuel + 1) addQ st =
      (Event.dequeue p :: Event.checkpoint rest ::
        (pr.1 ++ [Event.checkpoint (p :: pr.2.1.queue)]),
       BfsOutcome.failed e,
       (if 1000 < rest.length then false else addQ),
       { pr.2.1 with queue := (p :: pr.2.1.queue),
                     lastCheckpoint := some (p :: pr.2.1.queue) }) := by
  subst hpr
  simp only [bfs, h, herr]

/-- Claim C2, witness: a concrete failing fetch re-queues the id at the front
and ends the run with a checkpoint of the restored queue. -/
theorem c2_witness :
    bfs ⟨fun _ _ => Except.ok ["m"], fun _ => Except.error "boom"⟩ 1 true
        ⟨["a"], ["a"], ⟨[], [], []⟩, [], none⟩ =
      ([Event.dequeue "a", Event.checkpoint [], Event.fetch "a", Event.fetch "m",
        Event.checkpoint ["a"]],
       BfsOutcome.failed "boom", true,
       ⟨["a"], ["a"], ⟨[], [], []⟩, [], some ["a"]⟩) :=
  c2_error_requeue_halt ⟨fun _ _ => Except.ok ["m"], fun _ => Except.error "boom"⟩
    0 true ⟨["a"], ["a"], ⟨[], [], []⟩, [], none⟩ "a" [] "boom"
    ([Event.fetch "a", Event.fetch "m"], ⟨[], ["a"], ⟨[], [], []⟩, [], some []⟩,
      some "boom") rfl rfl rfl

lemma bfs_visited_invariant (O : CrawlOracle) (fuel : Nat) (addQ : Bool)
    (st : BfsSt) (h1 : ∀ x ∈ st.queue, x ∈ st.visited)
    (h2 : ∀ x ∈ st.playerStore, x ∈ st.visited) :
    (∀ x ∈ (bfs O fuel addQ st).2.2.2.queue, x ∈ (bfs O fuel addQ st).2.2.2.visited) ∧
    (∀ x ∈ (bfs O fuel addQ st).2.2.2.playerStore,
      x ∈ (bfs O fuel addQ st).2.2.2.visited) := by
  induction fuel generalizing addQ st with
  | zero => exact ⟨h1, h2⟩
  | succ n ih =>
    cases hq : st.queue with
    | nil =>
      simp only [bfs, hq]
      exact ⟨fun x hx => h1 x (by rw [hq]; exact hx), h2⟩
    | cons p rest =>
      simp only [bfs, hq]
      have hpin : p ∈ st.visited := h1 p (by rw [hq]; exact List.mem_cons_self p rest)
      rcases process_player_ok O p (if 1000 < rest.length then false else addQ)
          { st with queue := rest, lastCheckpoint := some rest } with ⟨k1, k2, k3, _, _⟩
      have hq1 : ∀ x ∈ (process_player O p (if 1000 < rest.length then false else addQ)
          { st with queue := rest, lastCheckpoint := some rest }).2.1.queue,
          x ∈ (process_player O p (if 1000 < rest.length then false else addQ)
          { st with queue := rest, lastCheckpoint := some rest }).2.1.visited := by
        intro x hx
        rcases k2 x hx with hx' | hx'
        · exact k1 x (h1 x (by rw [hq]; exact List.mem_cons_of_mem p hx'))
        · exact hx'
      have hp1 : ∀ x ∈ (process_player O p (if 1000 < rest.length then false else addQ)
          { st with queue := rest, lastCheckpoint := some rest }).2.1.playerStore,
          x ∈ (process_player O p (if 1000 < rest.length then false else addQ)
          { st with queue := rest, lastCheckpoint := some rest }).2.1.visited := by
        intro x hx
        rcases k3 x hx with hx' | rfl
        · exact k1 x (h2 x hx')
        · exact k1 x hpin
      cases herr : (process_player O p (if 1000 < rest.length then false else addQ)
          { st with queue := rest, lastCheckpoint := some rest }).2.2 with
      | some e =>
        simp only [herr]
        refine ⟨?_, hp1⟩
        intro x hx
        rcases List.mem_cons.mp hx with rfl | hx
        · exact k1 x hpin
        · exact hq1 x hx
      | none =>
        simp only [herr]
        exact ih _ _ hq1 hp1

/-- Claim C7, counterexample: immediately after resuming from a saved
checkpoint the resumed queue's ids are NOT added to the visited set — the
visited set is exactly the stored player summaries — so a queued id absent
from the player table violates VisitedSet ⊇ queue. -/
theorem c7_counterexample :
    (resume_from_queue ["a"] [] ⟨[], [], []⟩).map
      (fun st => (st.queue.contains "a", st.visited.contains "a")) =
      some (true, false) := rfl

/-- Claim C7 (amended): within a `bfs` run the invariant VisitedSet ⊇
{queued ids} ∪ {ids with a stored summary} is preserved from any state
satisfying it (in particular a fresh seeded run over an empty store); but
`resume_from_queue` sets VisitedSet to exactly the stored-summary ids without
adding the resumed queue, so after a resume only VisitedSet ⊇ {summarized}
holds and a queued-but-unsummarized id may be re-enqueued. -/
theorem c7_visited_invariant_amended :
    (∀ (O : CrawlOracle) (fuel : Nat) (addQ : Bool) (st : BfsSt),
      (∀ x ∈ st.queue, x ∈ st.visited) → (∀ x ∈ st.playerStore, x ∈ st.visited) →
      (∀ x ∈ (bfs O fuel addQ st).2.2.2.queue,
        x ∈ (bfs O fuel addQ st).2.2.2.visited) ∧
      (∀ x ∈ (bfs O fuel addQ st).2.2.2.playerStore,
        x ∈ (bfs O fuel addQ st).2.2.2.visited)) ∧
    (∀ (savedQueue storedPlayers : List String) (dm : DMState) (st : BfsSt),
      resume_from_queue savedQueue storedPlayers dm = some st →
      st.visited = storedPlayers ∧ st.playerStore = storedPlayers ∧
      st.queue = savedQueue) := by
  constructor
  · intro O fuel addQ st h1 h2
    exact bfs_visited_invariant O fuel addQ st h1 h2
  · intro savedQueue storedPlayers dm st h
    unfold resume_from_queue at h
    split at h
    · exact absurd h (by simp)
    · injection h with h'
      subst h'
      exact ⟨rfl, rfl, rfl⟩

/-- Claim C7, witness at a concrete seeded state satisfying the invariant. -/
theorem c7_witness :
    (∀ x ∈ (⟨["a"], ["a"], ⟨[], [], []⟩, [], none⟩ : BfsSt).queue,
      x ∈ (⟨["a"], ["a"], ⟨[], [], []⟩, [], none⟩ : BfsSt).visited) ∧
    (∀ x ∈ (bfs ⟨fun _ _ => Except.ok [], fun _ => Except.error "x"⟩ 1 true
        ⟨["a"], ["a"], ⟨[], [], []⟩, [], none⟩).2.2.2.queue,
      x ∈ (bfs ⟨fun _ _ => Except.ok [], fun _ => Except.error "x"⟩ 1 true
        ⟨["a"], ["a"], ⟨[], [], []⟩, [], none⟩).2.2.2.visited) :=
  ⟨fun _ hx => hx,
   (c7_visited_invariant_amended.1 ⟨fun _ _ => Except.ok [], fun _ => Except.error "x"⟩
      1 true ⟨["a"], ["a"], ⟨[], [], []⟩, [], none⟩
      (fun _ hx => hx) (fun x hx => absurd hx (List.not_mem_nil x))).1⟩

lemma bfs_flag_off (O : CrawlOracle) (fuel : Nat) (st : BfsSt) :
    NoEnq (bfs O fuel false st).1 ∧ (bfs O fuel false st).2.2.1 = false := by
  induction fuel generalizing st with
  | zero => exact ⟨fun p h => absurd h (List.not_mem_nil _), rfl⟩
  | succ n ih =>
    cases hq : st.queue with
    | nil =>
      simp only [bfs, hq]
      exact ⟨fun p h => absurd h (List.not_mem_nil _), trivial⟩
    | cons p rest =>
      simp only [bfs, hq, ite_self]
      rcases process_player_ok O p false
          { st with queue := rest, lastCheckpoint := some rest } with ⟨_, _, _, _, k5⟩
      cases herr : (process_player O p false
          { st with queue := rest, lastCheckpoint := some rest }).2.2 with
      | some e =>
        simp only [herr]
        refine ⟨?_, trivial⟩
        intro q hmem
        rcases List.mem_cons.mp hmem with h | hmem
        · exact Event.noConfusion h
        rcases List.mem_cons.mp hmem with h | hmem
        · exact Event.noConfusion h
        rcases List.mem_append.mp hmem with hmem | hmem
        · rcases k5 q hmem with ⟨hfalse, _⟩
          exact absurd hfalse (by simp)
        · rcases List.mem_singleton.mp hmem with h
          exact Event.noConfusion h
      | none =>
        simp only [herr]
        rcases ih ((process_player O p false
            { st with queue := rest, lastCheckpoint := some rest }).2.1) with ⟨ih1, ih2⟩
        refine ⟨?_, ih2⟩
        intro q hmem
        rcases List.mem_cons.mp hmem with h | hmem
        · exact Event.noConfusion h
        rcases List.mem_cons.mp hmem with h | hmem
        · exact Event.noConfusion h
        rcases List.mem_append.mp hmem with hmem | hmem
        · rcases k5 q hmem with ⟨hfalse, _⟩
          exact absurd hfalse (by simp)
        · exact ih1 q hmem

set_option maxRecDepth 40000 in
/-- Claim C8, counterexample: with 1001 ids in the queue at the start of the
step (not below the claimed ceiling of 1000), the post-dequeue check
`len(queue) > 1000` sees 1000 and leaves discovery enabled, so an enqueue
still happens. -/
theorem c8_counterexample :
    (⟨"a" :: List.replicate 1000 "b", ["a"], ⟨[], [], []⟩, [], none⟩ : BfsSt).queue.length
      = 1001 ∧
    ¬ ((⟨"a" :: List.replicate 1000 "b", ["a"], ⟨[], [], []⟩, [], none⟩ : BfsSt).queue.length
      < 1000) ∧
    Event.enqueue "t" ∈ (bfs
      ⟨fun p qt => if p == "a" && qt == QT.swiftplay then Except.ok ["m"]
        else Except.ok [],
       fun _ => Except.ok ⟨["a", "t"]⟩⟩ 1 true
      ⟨"a" :: List.replicate 1000 "b", ["a"], ⟨[], [], []⟩, [], none⟩).1 := by
  refine ⟨?_, ?_, ?_⟩
  · show ("a" :: List.replicate 1000 "b").length = 1001
    rw [List.length_cons, List.length_replicate]
  · show ¬ ("a" :: List.replicate 1000 "b").length < 1000
    rw [List.length_cons, List.length_replicate]
    decide
  · decide

/-- Claim C8 (amended): neighbor discovery enqueues only unvisited ids and
marks them visited; the ranked category and a cleared flag never enqueue;
once the flag is off it stays off with no further enqueues; and the flag is
latched off at the step whose post-dequeue queue length exceeds 1000
(start-of-step length 1002 or more), suppressing every later enqueue. -/
theorem c8_discovery_gating :
    (∀ (ps : List String) (st : BfsSt) (q : String),
        Event.enqueue q ∈ (add_teammates_to_queue ps st).1 →
        q ∉ st.visited ∧ q ∈ (add_teammates_to_queue ps st).2.visited) ∧
    (∀ (O : CrawlOracle) (puuid : String) (ids : List String) (addQ : Bool)
        (st : BfsSt) (q : String),
        Event.enqueue q ∉ (process_matches O puuid ids QT.ranked addQ st).1) ∧
    (∀ (O : CrawlOracle) (p : String) (st : BfsSt) (q : String),
        Event.enqueue q ∉ (process_player O p false st).1) ∧
    (∀ (O : CrawlOracle) (fuel : Nat) (st : BfsSt),
        NoEnq (bfs O fuel false st).1 ∧ (bfs O fuel false st).2.2.1 = false) ∧
    (∀ (O : CrawlOracle) (fuel : Nat) (addQ : Bool) (st : BfsSt) (p : String)
        (rest : List String), st.queue = p :: rest → 1000 < rest.length →
        NoEnq (bfs O (fuel + 1) addQ st).1 ∧
        (bfs O (fuel + 1) addQ st).2.2.1 = false) := by
  refine ⟨?_, ?_, ?_, ?_, ?_⟩
  · intro ps st q hq
    rcases add_teammates_events ps st (Event.enqueue q) hq with ⟨q', heq, hnv, hv⟩
    have : q' = q := by
      cases heq
      rfl
    subst this
    exact ⟨hnv, hv⟩
  · intro O puuid ids addQ st q hq
    rcases process_matches_ok O puuid ids QT.ranked addQ st with ⟨_, _, _, _, k5⟩
    rcases k5 q hq with ⟨_, hqt, _⟩
    exact QT.noConfusion hqt
  · intro O p st q hq
    rcases process_player_ok O p false st with ⟨_, _, _, _, k5⟩
    rcases k5 q hq with ⟨hfalse, _⟩
    exact absurd hfalse (by simp)
  · intro O fuel st
    exact bfs_flag_off O fuel st
  · intro O fuel addQ st p rest h h1000
    have hflag : (if 1000 < rest.length then false else addQ) = false :=
      if_pos h1000
    simp only [bfs, h, hflag]
    rcases process_player_ok O p false
        { st with queue := rest, lastCheckpoint := some rest } with ⟨_, _, _, _, k5⟩
    cases herr : (process_player O p false
        { st with queue := rest, lastCheckpoint := some rest }).2.2 with
    | some e =>
      simp only [herr]
      refine ⟨?_, trivial⟩
      intro q hmem
      rcases List.mem_cons.mp hmem with h' | hmem
      · exact Event.noConfusion h'
      rcases List.mem_cons.mp hmem with h' | hmem
      · exact Event.noConfusion h'
      rcases List.mem_append.mp hmem with hmem | hmem
      · rcases k5 q hmem with ⟨hfalse, _⟩
        exact absurd hfalse (by simp)
      · rcases List.mem_singleton.mp hmem with h'
        exact Event.noConfusion h'
    | none =>
      simp only [herr]
      rcases bfs_flag_off O fuel ((process_player O p false
          { st with queue := rest, lastCheckpoint := some rest }).2.1) with ⟨ih1, ih2⟩
      refine ⟨?_, ih2⟩
      intro q hmem
      rcases List.mem_cons.mp hmem with h' | hmem
      · exact Event.noConfusion h'
      rcases List.mem_cons.mp hmem with h' | hmem
      · exact Event.noConfusion h'
      rcases List.mem_append.mp hmem with hmem | hmem
      · rcases k5 q hmem with ⟨hfalse, _⟩
        exact absurd hfalse (by simp)
      · exact ih1 q hmem

/-- Claim C8, witness: with 1001 ids remaining after the dequeue the flag is
latched off and the step's trace holds no enqueue. -/
theorem c8_witness :
    1000 < (List.replicate 1001 "b").length ∧
    (NoEnq (bfs ⟨fun _ _ => Except.ok [], fun _ => Except.error "x"⟩ 1 true
        ⟨"a" :: List.replicate 1001 "b", [], ⟨[], [], []⟩, [], none⟩).1 ∧
     (bfs ⟨fun _ _ => Except.ok [], fun _ => Except.error "x"⟩ 1 true
        ⟨"a" :: List.replicate 1001 "b", [], ⟨[], [], []⟩, [], none⟩).2.2.1 = false) :=
  ⟨by rw [List.length_replicate]; decide,
   c8_discovery_gating.2.2.2.2 ⟨fun _ _ => Except.ok [], fun _ => Except.error "x"⟩
     0 true ⟨"a" :: List.replicate 1001 "b", [], ⟨[], [], []⟩, [], none⟩
     "a" (List.replicate 1001 "b") rfl (by rw [List.length_replicate]; decide)⟩

/-! ## Rate limiter lemmas -/

lemma dropWhile_fresh (win a : ℚ) (ts : List ℚ)
    (hsort : List.Pairwise (· ≤ ·) ts) :
    ∀ t ∈ ts.dropWhile (fun t => decide (win < a - t)), a - t ≤ win := by
  induction ts with
  | nil => simp
  | cons x xs ih =>
    rcases List.pairwise_cons.mp hsort with ⟨hx, hxs⟩
    by_cases hp : win < a - x
    · rw [List.dropWhile_cons_of_pos (by simpa using hp)]
      exact ih hxs
    · rw [List.dropWhile_cons_of_neg (by simpa using hp)]
      intro t ht
      rcases List.mem_cons.mp ht with rfl | ht
      · linarith [not_lt.mp hp]
      · have hxt : x ≤ t := hx t ht
        have hax : a - x ≤ win := not_lt.mp hp
        linarith

lemma youngCount_append (win now : ℚ) (l1 l2 : List ℚ) :
    youngCount win now (l1 ++ l2) = youngCount win now l1 + youngCount win now l2 := by
  simp [youngCount, List.filter_append]

lemma youngCount_self (win now : ℚ) (hwin : 0 < win) :
    youngCount win now [now] = 1 := by
  simp [youngCount, hwin]

lemma youngCount_le_length (win now : ℚ) (l : List ℚ) :
    youngCount win now l ≤ l.length :=
  List.length_filter_le _ l

/-- The core window bound: after pruning at entry time `a` and appending the
admission instant `now2`, the window holds at most `lim` timestamps younger
than `win` — provided the code slept enough that`now2 ≥ oldest + win`
whenever the pruned window was at the limit. -/
lemma window_step (win : ℚ) (hwin : 0 < win) (lim : Nat) (hlim : 1 ≤ lim)
    (T a now2 : ℚ)
    (ts : List ℚ) (hsort : List.Pairwise (· ≤ ·) ts) (hle : ∀ t ∈ ts, t ≤ T)
    (hyoung : youngCount win T ts ≤ lim) (hTa : T < a) (hanow : a ≤ now2)
    (hbranch : lim ≤ (ts.dropWhile (fun t => decide (win < a - t))).length →
      (ts.dropWhile (fun t => decide (win < a - t))).headD 0 + win ≤ now2) :
    List.Pairwise (· ≤ ·) ((ts.dropWhile (fun t => decide (win < a - t))) ++ [now2]) ∧
    (∀ t ∈ (ts.dropWhile (fun t => decide (win < a - t))) ++ [now2], t ≤ now2) ∧
    youngCount win now2 ((ts.dropWhile (fun t => decide (win < a - t))) ++ [now2])
      ≤ lim := by
  have hsub : List.Sublist (ts.dropWhile (fun t => decide (win < a - t))) ts :=
    List.dropWhile_sublist _
  have hsort' : List.Pairwise (· ≤ ·) (ts.dropWhile (fun t => decide (win < a - t))) :=
    List.Pairwise.sublist hsub hsort
  have hleT : ∀ t ∈ ts.dropWhile (fun t => decide (win < a - t)), t ≤ T :=
    fun t ht => hle t (hsub.subset ht)
  have hlenow : ∀ t ∈ ts.dropWhile (fun t => decide (win < a - t)), t ≤ now2 :=
    fun t ht => le_trans (hleT t ht) (le_trans (le_of_lt hTa) hanow)
  have hyoungT : ∀ t ∈ ts.dropWhile (fun t => decide (win < a - t)), T - t < win := by
    intro t ht
    have h1 := dropWhile_fresh win a ts hsort t ht
    linarith
  have hlen : (ts.dropWhile (fun t => decide (win < a - t))).length ≤ lim := by
    have heq : (ts.dropWhile (fun t => decide (win < a - t))).filter
        (fun t => decide (T - t < win)) =
        ts.dropWhile (fun t => decide (win < a - t)) := by
      apply List.filter_eq_self.mpr
      intro t ht
      exact decide_eq_true (hyoungT t ht)
    calc (ts.dropWhile (fun t => decide (win < a - t))).length
        = ((ts.dropWhile (fun t => decide (win < a - t))).filter
            (fun t => decide (T - t < win))).length := by rw [heq]
      _ ≤ (ts.filter (fun t => decide (T - t < win))).length :=
          (hsub.filter _).length_le
      _ ≤ lim := hyoung
  refine ⟨?_, ?_, ?_⟩
  · rw [List.pairwise_append]
    refine ⟨hsort', List.pairwise_singleton _ _, ?_⟩
    intro x hx y hy
    rcases List.mem_singleton.mp hy with rfl
    exact hlenow x hx
  · intro t ht
    rcases List.mem_append.mp ht with ht | ht
    · exact hlenow t ht
    · rcases List.mem_singleton.mp ht with rfl
      exact le_refl t
  · rw [youngCount_append, youngCount_self win now2 hwin]
    by_cases hfull : lim ≤ (ts.dropWhile (fun t => decide (win < a - t))).length
    · have hplen : (ts.dropWhile (fun t => decide (win < a - t))).length = lim :=
        le_antisymm hlen hfull
      have hbound := hbranch hfull
      have hne : ts.dropWhile (fun t => decide (win < a - t)) ≠ [] := by
        intro hnil
        rw [hnil] at hplen
        simp only [List.length_nil] at hplen
        omega
      obtain ⟨h0, tl, hpr⟩ := List.exists_cons_of_ne_nil hne
      rw [hpr] at hbound hplen ⊢
      have hh0 : ¬ (now2 - h0 < win) := by
        simp only [List.headD_cons] at hbound
        linarith
      have hcnt : youngCount win now2 (h0 :: tl) = youngCount win now2 tl := by
        simp [youngCount, List.filter_cons, hh0]
      rw [hcnt]
      have := youngCount_le_length win now2 tl
      simp only [List.length_cons] at hplen
      omega
    · have := youngCount_le_length win now2 (ts.dropWhile (fun t => decide (win < a - t)))
      omega

lemma shortAdjusted_ge (rps : Nat) (now : ℚ) (sh : List ℚ) :
    now ≤ shortAdjusted rps now sh := by
  unfold shortAdjusted
  split
  · split
    · linarith
    · exact le_refl now
  · exact le_refl now


lemma shortAdjusted_bound (rps : Nat) (now : ℚ) (sh : List ℚ)
    (h : rps ≤ sh.length) : sh.headD 0 + 1 ≤ shortAdjusted rps now sh := by
  unfold shortAdjusted
  rw [if_pos h]
  by_cases h0 : 0 < 1 - (now - sh.headD 0)
  · rw [if_pos h0]
    linarith
  · rw [if_neg h0]
    push_neg at h0
    linarith

lemma longAdjusted_ge (r2m : Nat) (now now1 : ℚ) (lo : List ℚ) :
    now1 ≤ longAdjusted r2m now now1 lo := by
  unfold longAdjusted
  split
  · split
    · linarith
    · exact le_refl now1
  · exact le_refl now1

lemma longAdjusted_bound (r2m : Nat) (now now1 : ℚ) (lo : List ℚ)
    (h : r2m ≤ lo.length) (hn : now ≤ now1) :
    lo.headD 0 + 120 ≤ longAdjusted r2m now now1 lo := by
  unfold longAdjusted
  rw [if_pos h]
  by_cases h0 : 0 < 120 - (now - lo.headD 0)
  · rw [if_pos h0]
    linarith
  · rw [if_neg h0]
    push_neg at h0
    linarith

lemma wait_if_needed_preserves (rps r2m : Nat) (hr : 1 ≤ rps) (hm : 1 ≤ r2m)
    (T a : ℚ) (s : RLState)
    (hTa : T < a) (hinv : RLInv rps r2m T s) :
    RLInv rps r2m (wait_if_needed rps r2m a s).1 (wait_if_needed rps r2m a s).2 ∧
    a ≤ (wait_if_needed rps r2m a s).1 := by
  obtain ⟨hs1, hs2, hs3, hl1, hl2, hl3⟩ := hinv
  have hanow : a ≤ longAdjusted r2m a (shortAdjusted rps a (pruneWindow 1 a s.short))
      (pruneWindow 120 a s.long) :=
    le_trans (shortAdjusted_ge rps a _) (longAdjusted_ge r2m a _ _)
  have hshort := window_step 1 (by norm_num) rps hr T a
    (longAdjusted r2m a (shortAdjusted rps a (pruneWindow 1 a s.short))
      (pruneWindow 120 a s.long))
    s.short hs1 hs2 hs3 hTa hanow
    (fun hfull => le_trans (shortAdjusted_bound rps a _ hfull)
      (longAdjusted_ge r2m a _ _))
  have hlong := window_step 120 (by norm_num) r2m hm T a
    (longAdjusted r2m a (shortAdjusted rps a (pruneWindow 1 a s.short))
      (pruneWindow 120 a s.long))
    s.long hl1 hl2 hl3 hTa hanow
    (fun hfull => longAdjusted_bound r2m a _ _ hfull (shortAdjusted_ge rps a _))
  exact ⟨⟨hshort.1, hshort.2.1, hshort.2.2, hlong.1, hlong.2.1, hlong.2.2⟩, hanow⟩

lemma runRL_bound (rps r2m : Nat) (hr : 1 ≤ rps) (hm : 1 ≤ r2m)
    (ds : List ℚ) (T : ℚ) (s : RLState)
    (hpos : ∀ d ∈ ds, 0 < d) (hinv : RLInv rps r2m T s) :
    ∀ pr ∈ runRL rps r2m T s ds,
      youngCount 1 pr.1 pr.2.short ≤ rps ∧ youngCount 120 pr.1 pr.2.long ≤ r2m := by
  induction ds generalizing T s with
  | nil =>
    intro pr hpr
    simp [runRL] at hpr
  | cons d ds ih =>
    intro pr hpr
    have hTa : T < T + d := by
      have := hpos d (List.mem_cons_self d ds)
      linarith
    obtain ⟨hinv', _⟩ := wait_if_needed_preserves rps r2m hr hm T (T + d) s hTa hinv
    rw [runRL] at hpr
    rcases List.mem_cons.mp hpr with rfl | hpr
    · exact ⟨hinv'.2.2.1, hinv'.2.2.2.2.2⟩
    · exact ih _ _ (fun d' hd' => hpos d' (List.mem_cons_of_mem d hd')) hinv' pr hpr

set_option maxRecDepth 20000 in
/-- Claim C5, counterexample: with simultaneous calls (zero inter-arrival
delay) the strict `> 1` pruning keeps entries exactly one second old while
the computed wait `1 - (now - oldest)` is zero, so no sleep happens and the
41st back-to-back admission observes 21 short-window timestamps younger than
one second — exceeding the budget of 20. -/
theorem c5_counterexample :
    budgetViolated 20 100 (runRL 20 100 0 ⟨[], []⟩ (List.replicate 41 0)) = true ∧
    ((runRL 20 100 0 ⟨[], []⟩ (List.replicate 41 0)).getLast?).map
      (fun pr => youngCount 1 pr.1 pr.2.short) = some 21 := by
  constructor
  · with_unfolding_all decide
  · with_unfolding_all decide

/-- Claim C5 (amended): provided each call enters strictly after the previous
admission instant (strictly positive inter-arrival delays), every admission
of a run with limits 20/1s and 100/120s observes at most 20 short-window
timestamps younger than 1 second and at most 100 long-window timestamps
younger than 120 seconds, the moment the request is recorded. -/
theorem c5_rate_limiter_window_bound (ds : List ℚ) (t0 : ℚ)
    (hpos : ∀ d ∈ ds, 0 < d) :
    ∀ pr ∈ runRL 20 100 t0 ⟨[], []⟩ ds,
      youngCount 1 pr.1 pr.2.short ≤ 20 ∧ youngCount 120 pr.1 pr.2.long ≤ 100 :=
  runRL_bound 20 100 (by norm_num) (by norm_num) ds t0 ⟨[], []⟩ hpos
    ⟨List.Pairwise.nil, by simp, by simp [youngCount],
     List.Pairwise.nil, by simp, by simp [youngCount]⟩

/-- Claim C5, witness: two calls one second apart stay within both budgets. -/
theorem c5_witness :
    (∀ d ∈ [(1 : ℚ), 1], 0 < d) ∧
    (∀ pr ∈ runRL 20 100 0 ⟨[], []⟩ [(1 : ℚ), 1],
      youngCount 1 pr.1 pr.2.short ≤ 20 ∧ youngCount 120 pr.1 pr.2.long ≤ 100) :=
  ⟨by decide, c5_rate_limiter_window_bound [1, 1] 0 (by decide)⟩

end SwiftPlay
